import Mathlib

/-!
# A model of the link-extraction engine of `pywebcopy/parsers.py`

This file embeds, as executable Lean definitions, the link scanner of the
repository's `pywebcopy/parsers.py` (class `Parser`, in particular the
static method `_handle_lxml_elem` and the `parse`/`elements`/`get_source`
machinery), together with the regex helpers that the source imports from
`lxml.html` and uses verbatim:

* `_iter_srcset_urls = re.compile(r"([^\s,]{5,})", re.MULTILINE).finditer`
* `_unquote_match` (strip one pair of surrounding quotes, shifting the offset)
* `_iter_css_urls  = re.compile(r'url\((["][^"]*["]|[\x27][^\x27]*[\x27]|[^)]*)\)', re.I).finditer`
* `_iter_css_imports = re.compile(r'@import "(.*?)"').finditer`
* `_parse_meta_refresh_url = re.compile(r'[^;=]*;\s*(?:url\s*=\s*)?(?P<url>.*)$', re.I).search`
* `_archive_re = re.compile(r'[^ ]+')` and `_nons`

Strings are modelled as `List Char` and offsets as `Nat`.  The attribute
classification tables `SINGLE_LINK_ATTRIBS` / `LIST_LINK_ATTRIBS` live in a
module (`pywebcopy/globals.py`) that is not part of the sources at hand; the
specification describes them as external configuration, so here they are
parameters of the scanner.  Likewise `urljoin` (from `six.moves.urllib.parse`)
is treated as an abstract resolution function passed as a parameter: no
statement below depends on its internals.  Unicode case folding of
`str.lower()` is modelled at the ASCII level via `Char.toLower`.
-/

namespace PWC

/-- Python strings are modelled as lists of characters. -/
abbrev Str := List Char

/-- Literal coercion from Lean string literals to the model's strings. -/
def lit (s : String) : Str := s.data

/-- The characters matched by Python's `\s` (and stripped by `str.strip()`)
for text patterns: ASCII whitespace plus the Unicode whitespace code points. -/
def isPySpace (c : Char) : Bool :=
  let n := c.val.toNat
  n = 32 ∨ (9 ≤ n ∧ n ≤ 13) ∨ (28 ≤ n ∧ n ≤ 31) ∨ n = 0x85 ∨ n = 0xa0 ∨
    n = 0x1680 ∨ (0x2000 ≤ n ∧ n ≤ 0x200a) ∨ n = 0x2028 ∨ n = 0x2029 ∨
    n = 0x202f ∨ n = 0x205f ∨ n = 0x3000

/-- `str.strip()`: drop leading and trailing whitespace. -/
def pyStrip (s : Str) : Str :=
  ((s.dropWhile isPySpace).reverse.dropWhile isPySpace).reverse

/-- `lxml.html._unquote_match`: if the captured text starts and ends with the
same quote character, return the inner text and bump the offset past the
opening quote; otherwise return the pair unchanged.  (As in the source, a
single lone quote character counts as quoted and yields the empty string.) -/
def unquote_match (s : Str) (pos : Nat) : Str × Nat :=
  if (s.head? = some '"' ∧ s.getLast? = some '"') ∨
     (s.head? = some '\'' ∧ s.getLast? = some '\'') then
    ((s.drop 1).dropLast, pos + 1)
  else
    (s, pos)

/-- `re.finditer` of a pattern of the shape `[^D]+` (for a delimiter class
`D`): the maximal runs of non-delimiter characters, each paired with its
start offset.  `i` is the offset of the head of `s` in the scanned string. -/
def runsAuxF (d : Char → Bool) : Nat → Str → Nat → List (Str × Nat)
  | 0, _, _ => []
  | _ + 1, [], _ => []
  | fuel + 1, c :: rest, i =>
    if d c then
      runsAuxF d fuel rest (i + 1)
    else
      (c :: rest.takeWhile (fun x => !d x), i) ::
        runsAuxF d fuel (rest.dropWhile (fun x => !d x))
          (i + (c :: rest.takeWhile (fun x => !d x)).length)

/-- The fuel argument is an implementation device for structural recursion:
every step consumes at least one character, so `s.length` fuel always
suffices and the scan runs to the end of the string. -/
def runsAux (d : Char → Bool) (s : Str) (i : Nat) : List (Str × Nat) :=
  runsAuxF d s.length s i

/-- Delimiters of the srcset tokenizer `[^\s,]{5,}`: whitespace or comma. -/
def isSrcsetDelim (c : Char) : Bool := isPySpace c ∨ c = ','

/-- `_iter_srcset_urls`: `re.compile(r"([^\s,]{5,})").finditer` — the maximal
runs of non-space, non-comma characters of length at least 5, with offsets. -/
def iter_srcset_urls (s : Str) : List (Str × Nat) :=
  (runsAux isSrcsetDelim s 0).filter (fun m => 5 ≤ m.1.length)

/-- `_archive_re.finditer`: `re.compile(r'[^ ]+')` — maximal runs of
non-space characters (ASCII space only), with offsets. -/
def archive_finditer (s : Str) : List (Str × Nat) :=
  runsAux (fun c => c = ' ') s 0

/-- Case-insensitive test for the literal `url(` at the head of the text. -/
def isUrlOpen : Str → Bool
  | a :: b :: c :: d :: _ =>
    (a = 'u' ∨ a = 'U') ∧ (b = 'r' ∨ b = 'R') ∧ (c = 'l' ∨ c = 'L') ∧ d = '('
  | _ => false

/-- The quoted alternatives of the `_iter_css_urls` group, tried first by the
regex alternation: if the body starts with a quote and the first subsequent
occurrence of the same quote is followed by `)`, the group is the quoted run
(quotes included); `(group, inner length)` is returned. -/
def cssQuotedGroup (body : Str) : Option (Str × Nat) :=
  match body.head? with
  | some q =>
    if q = '"' ∨ q = '\'' then
      let inner := (body.drop 1).takeWhile (fun d => d ≠ q)
      let after := (body.drop 1).drop inner.length
      if after.head? = some q ∧ (after.drop 1).head? = some ')' then
        some (q :: (inner ++ [q]), inner.length)
      else
        none
    else
      none
  | none => none

/-- `_iter_css_urls`: `re.compile(r'url\((["][^"]*["]|...|[^)]*)\)', re.I)`.
At each position where `url(` matches (case-insensitively), the group is
tried as a double-quoted body, a single-quoted body, then a run of
non-`)` characters, exactly as the regex alternation resolves; each match
yields `(group text, group start offset)` and scanning resumes after the
closing parenthesis, as `finditer` does.  With no `)` ahead the candidate
fails and the scan advances one character. -/
def cssUrlFindF : Nat → Str → Nat → List (Str × Nat)
  | 0, _, _ => []
  | _ + 1, [], _ => []
  | fuel + 1, c :: rest, i =>
    if isUrlOpen (c :: rest) then
      match cssQuotedGroup (rest.drop 3) with
      | some gi =>
        (gi.1, i + 4) ::
          cssUrlFindF fuel (((rest.drop 3).drop 1).drop (gi.2 + 2))
            (i + 4 + (gi.2 + 2) + 1)
      | none =>
        if ((rest.drop 3).drop
            ((rest.drop 3).takeWhile (fun d => d ≠ ')')).length).head? = some ')' then
          ((rest.drop 3).takeWhile (fun d => d ≠ ')'), i + 4) ::
            cssUrlFindF fuel
              ((rest.drop 3).drop (((rest.drop 3).takeWhile (fun d => d ≠ ')')).length + 1))
              (i + 4 + ((rest.drop 3).takeWhile (fun d => d ≠ ')')).length + 1)
        else
          cssUrlFindF fuel rest (i + 1)
    else
      cssUrlFindF fuel rest (i + 1)

/-- The fuel argument is an implementation device for structural recursion:
every step consumes at least one character, so `s.length` fuel always
suffices and the scan runs to the end of the string. -/
def cssUrlFind (s : Str) (i : Nat) : List (Str × Nat) :=
  cssUrlFindF s.length s i

/-- `_iter_css_urls` over a whole string. -/
def iter_css_urls (s : Str) : List (Str × Nat) := cssUrlFind s 0

/-- The literal `@import "` (case-sensitive, exactly one space). -/
def isImportOpen : Str → Bool
  | '@' :: 'i' :: 'm' :: 'p' :: 'o' :: 'r' :: 't' :: ' ' :: '"' :: _ => true
  | _ => false

/-- `_iter_css_imports`: `re.compile(r'@import "(.*?)"').finditer`.  After the
literal `@import "`, the lazy group runs to the first `"`; since `.` does not
match a newline, a newline before the closing quote makes the candidate fail
and scanning resumes one character further on. -/
def cssImportFindF : Nat → Str → Nat → List (Str × Nat)
  | 0, _, _ => []
  | _ + 1, [], _ => []
  | fuel + 1, c :: rest, i =>
    if isImportOpen (c :: rest) then
      if ((rest.drop 8).drop
          ((rest.drop 8).takeWhile (fun d => d ≠ '"' ∧ d ≠ '\n')).length).head? =
          some '"' then
        ((rest.drop 8).takeWhile (fun d => d ≠ '"' ∧ d ≠ '\n'), i + 9) ::
          cssImportFindF fuel
            ((rest.drop 8).drop
              (((rest.drop 8).takeWhile (fun d => d ≠ '"' ∧ d ≠ '\n')).length + 1))
            (i + 9 + ((rest.drop 8).takeWhile (fun d => d ≠ '"' ∧ d ≠ '\n')).length + 1)
      else
        cssImportFindF fuel rest (i + 1)
    else
      cssImportFindF fuel rest (i + 1)

/-- The fuel argument is an implementation device for structural recursion:
every step consumes at least one character, so `s.length` fuel always
suffices and the scan runs to the end of the string. -/
def cssImportFind (s : Str) (i : Nat) : List (Str × Nat) :=
  cssImportFindF s.length s i

/-- `_iter_css_imports` over a whole string. -/
def iter_css_imports (s : Str) : List (Str × Nat) := cssImportFind s 0

/-! ## Python tuple comparison and `list.sort(reverse=True)` -/

/-- Python string comparison `s <= t`: lexicographic on code points. -/
def charListLe : Str → Str → Bool
  | [], _ => true
  | _ :: _, [] => false
  | a :: as_, b :: bs =>
    if a.val.toNat < b.val.toNat then true
    else if b.val.toNat < a.val.toNat then false
    else charListLe as_ bs

/-- The order in which `urls.sort(reverse=True)` arranges `(start, url)`
pairs: descending lexicographic tuple comparison, integers first, then
Python string comparison on ties. -/
def cssGe (a b : Nat × Str) : Prop :=
  b.1 < a.1 ∨ (b.1 = a.1 ∧ charListLe b.2 a.2 = true)

instance : DecidableRel cssGe := fun a b => by
  unfold cssGe; infer_instance

/-! ## The meta-refresh regex

`_parse_meta_refresh_url = re.compile(r'[^;=]*;\s*(?:url\s*=\s*)?(?P<url>.*)$', re.I).search`.

`search` attempts a match whose `;` is each `;` of the string in turn
(a candidate start position exists for every `;`, namely just after the
previous `;`/`=`/start, and group and offsets depend only on the position
of the `;`).  After the `;`, greedy `\s*` runs are maximal, the optional
`url =` part is taken when present, and `(?P<url>.*)$` succeeds exactly
when no newline remains other than a final one (backtracking into the
whitespace runs can never rescue a failed tail, since the tail's failure
is an interior newline that any shorter run still faces). -/

/-- `(?P<url>.*)$` at absolute offset `t`: fails on an interior newline;
a single final newline is left out of the group. -/
def dotStarEnd (t0 : Str) (t : Nat) : Option (Str × Nat) :=
  if '\n' ∈ t0.dropLast then none
  else if t0.getLast? = some '\n' then some (t0.dropLast, t) else some (t0, t)

/-- Case-insensitive test for the literal `url` at the head of the text. -/
def matchesUrlCI : Str → Bool
  | a :: b :: c :: _ =>
    (a = 'u' ∨ a = 'U') ∧ (b = 'r' ∨ b = 'R') ∧ (c = 'l' ∨ c = 'L')
  | _ => false

/-- The optional `url\s*=\s*` part of the meta-refresh pattern, tried when
the text after the whitespace starts with `url` (case-insensitively): with
an `=` present the group starts after it and its whitespace, else the
optional part is skipped and the group starts at `r1` itself.  `r1` is the
text after the maximal whitespace run following the `;`, at offset `a`. -/
def refreshTailUrl (r1 : Str) (a : Nat) : Option (Str × Nat) :=
  if ((r1.drop 3).dropWhile isPySpace).head? = some '=' then
    dotStarEnd ((((r1.drop 3).dropWhile isPySpace).drop 1).dropWhile isPySpace)
      (a + 3 + ((r1.drop 3).takeWhile isPySpace).length + 1 +
        ((((r1.drop 3).dropWhile isPySpace).drop 1).takeWhile isPySpace).length)
  else
    dotStarEnd r1 a

/-- The part of the meta-refresh pattern after the `;`:
`\s*(?:url\s*=\s*)?(?P<url>.*)$`, where `t` is the text after the `;` and
`base` its absolute offset.  Returns the `url` group and its offset. -/
def refreshTail (t : Str) (base : Nat) : Option (Str × Nat) :=
  if matchesUrlCI (t.dropWhile isPySpace) then
    refreshTailUrl (t.dropWhile isPySpace) (base + (t.takeWhile isPySpace).length)
  else
    dotStarEnd (t.dropWhile isPySpace) (base + (t.takeWhile isPySpace).length)

/-- `_parse_meta_refresh_url`: the leftmost match of
`[^;=]*;\s*(?:url\s*=\s*)?(?P<url>.*)$` (case-insensitive), reported as the
`url` group together with its offset (`match.start('url')`). -/
def parse_meta_refresh_url : Str → Nat → Option (Str × Nat)
  | [], _ => none
  | c :: rest, i =>
    if c = ';' then
      match refreshTail rest (i + 1) with
      | some r => some r
      | none => parse_meta_refresh_url rest (i + 1)
    else
      parse_meta_refresh_url rest (i + 1)

/-- Python `str.find` (for a pattern that occurs): the least offset at which
the pattern is a prefix of the remaining text. -/
def listFind : Str → Str → Option Nat
  | s, pat =>
    if pat.isPrefixOf s then some 0
    else
      match s with
      | [] => none
      | _ :: rest => (listFind rest pat).map (· + 1)

/-! ## Elements and occurrences -/

/-- A parsed-tree element as the scanner consumes it: a tag name, the
ordered attribute mapping, and the optional text content. -/
structure Elem where
  tag : Str
  attrs : List (Str × Str)
  text : Option Str
deriving DecidableEq

/-- One yielded item `(attribute, link, pos)` of `_handle_lxml_elem`
(the element component of the tuple is the scanned element itself).
`attr = none` models attribute `None` (a link in the text); `url` is
optional because `<param valuetype="ref">` yields `el.get('value')`,
which is `None` when the attribute is missing. -/
structure Occ where
  attr : Option Str
  url : Option Str
  pos : Nat
deriving DecidableEq

/-- `el.attrib[name]` / `el.get(name)`. -/
def lookupAttr (el : Elem) (name : Str) : Option Str :=
  (el.attrs.find? (fun p => p.1 == name)).map (·.2)

/-- `str.lower()`, at the ASCII level. -/
def asciiLower (s : Str) : Str := s.map Char.toLower

/-- The XHTML namespace constant of `lxml.html`. -/
def xhtmlNS : Str := lit "http://www.w3.org/1999/xhtml"

/-- `tag.split('}')[-1]`: the text after the last `}`. -/
def afterLastBrace (s : Str) : Str :=
  (s.reverse.takeWhile (fun c => c ≠ '}')).reverse

/-- `lxml.html._nons`: strip the XHTML namespace from a tag name. -/
def nons (tag : Str) : Str :=
  if tag.head? = some '{' ∧ (tag.drop 1).take 28 = xhtmlNS then
    afterLastBrace tag
  else
    tag

/-! ## The per-branch occurrence builders of `_handle_lxml_elem` -/

/-- The `tag == 'object'` branch: `codebase` first, then `classid` and
`data` resolved against it, then the `_archive_re` tokens of `archive` at
their match starts, in forward order.  `uj` abstracts `urljoin`. -/
def objectOccs (uj : Str → Str → Str) (el : Elem) : List Occ :=
  let codebase := lookupAttr el (lit "codebase")
  let resolve := fun (v : Str) =>
    match codebase with
    | some cb => uj cb v
    | none => v
  (match codebase with
   | some cb => [⟨some (lit "codebase"), some cb, 0⟩]
   | none => []) ++
  ([lit "classid", lit "data"].filterMap (fun a =>
    (lookupAttr el a).map (fun v => ⟨some a, some (resolve v), 0⟩))) ++
  (match lookupAttr el (lit "archive") with
   | some av =>
     (archive_finditer av).map (fun m => ⟨some (lit "archive"), some (resolve m.1), m.2⟩)
   | none => [])

/-- The `SINGLE_LINK_ATTRIBS` loop: every configured name present on the
element yields its verbatim value at offset 0, in table order. -/
def singleOccs (single : List Str) (el : Elem) : List Occ :=
  single.filterMap (fun a =>
    (lookupAttr el a).map (fun v => ⟨some a, some v, 0⟩))

/-- The matches of one multi-URL attribute value, emitted in reversed
order, each stripped and unquoted (`_unquote_match(match.group(1).strip(),
match.start(1))`). -/
def srcsetOccs (v : Str) : List (Str × Nat) :=
  (iter_srcset_urls v).reverse.map (fun m => unquote_match (pyStrip m.1) m.2)

/-- The `LIST_LINK_ATTRIBS` loop. -/
def listAttrOccs (multi : List Str) (el : Elem) : List Occ :=
  multi.flatMap (fun a =>
    match lookupAttr el a with
    | some v => (srcsetOccs v).map (fun r => ⟨some a, some r.1, r.2⟩)
    | none => [])

/-- `url = (match.group('url') if match else content).strip()`: the
candidate url before the truthiness test. -/
def metaRawUrl (content : Str) : Str :=
  pyStrip (match parse_meta_refresh_url content 0 with
    | some gp => gp.1
    | none => content)

/-- `match.start('url') if match else content.find(url)`: the position
passed to `_unquote_match` (the `find` always succeeds; `getD 0` stands in
for the impossible `-1`). -/
def metaPos (content : Str) : Nat :=
  match parse_meta_refresh_url content 0 with
  | some gp => gp.2
  | none => (listFind content (metaRawUrl content)).getD 0

/-- The meta-refresh `content` handling: parse with
`_parse_meta_refresh_url`; on failure fall back to the whole `content`;
strip, and yield nothing when the result is empty, else unquote and yield
one occurrence. -/
def metaContentOccs (el : Elem) : List Occ :=
  if metaRawUrl ((lookupAttr el (lit "content")).getD []) = [] then []
  else
    [⟨some (lit "content"),
      some (unquote_match (metaRawUrl ((lookupAttr el (lit "content")).getD []))
        (metaPos ((lookupAttr el (lit "content")).getD []))).1,
      (unquote_match (metaRawUrl ((lookupAttr el (lit "content")).getD []))
        (metaPos ((lookupAttr el (lit "content")).getD []))).2⟩]

/-- The `tag == 'meta'` branch, guarded on `http-equiv` lowercasing to
`refresh`. -/
def metaOccs (el : Elem) : List Occ :=
  if asciiLower ((lookupAttr el (lit "http-equiv")).getD []) = lit "refresh" then
    metaContentOccs el
  else
    []

/-- The `tag == 'param'` branch: `valuetype` case-insensitively `ref`
yields `el.get('value')` (possibly `None`) at offset 0. -/
def paramOccs (el : Elem) : List Occ :=
  if asciiLower ((lookupAttr el (lit "valuetype")).getD []) = lit "ref" then
    [⟨some (lit "value"), lookupAttr el (lit "value"), 0⟩]
  else
    []

/-- The `tag == 'style'` text branch: `url()` matches (unquoted, as
`(start, url)`) together with `@import` matches, sorted descending as
Python's `urls.sort(reverse=True)` sorts the tuples, yielded with
attribute `None`. -/
def styleTextOccs (t : Str) : List Occ :=
  let urls := (iter_css_urls t).map (fun m =>
    let r := unquote_match m.1 m.2
    (r.2, r.1))
  let imps := (iter_css_imports t).map (fun m => (m.2, m.1))
  ((urls ++ imps).insertionSort cssGe).map (fun pu => ⟨none, some pu.2, pu.1⟩)

/-- The `style` attribute branch: `url()` matches only, in reversed order,
unquoted. -/
def styleAttrOccs (v : Str) : List Occ :=
  (iter_css_urls v).reverse.map (fun m =>
    let r := unquote_match m.1 m.2
    ⟨some (lit "style"), some r.1, r.2⟩)

/-- Whether `el.text` is truthy (`tag == 'style' and el.text`). -/
def textTruthy (el : Elem) : Bool :=
  (el.text.getD []) ≠ []

/-- `Parser._handle_lxml_elem`, as the list of `(attr, url, pos)` items it
yields for one element, in yield order.  `uj` abstracts `urljoin`;
`single` and `multi` are the configured `SINGLE_LINK_ATTRIBS` and
`LIST_LINK_ATTRIBS` tables. -/
def handle_lxml_elem (uj : Str → Str → Str) (single multi : List Str)
    (el : Elem) : List Occ :=
  (if nons el.tag = lit "object" then
    objectOccs uj el
   else
    singleOccs single el ++ listAttrOccs multi el) ++
  (if nons el.tag = lit "meta" then
    metaOccs el
   else if nons el.tag = lit "param" then
    paramOccs el
   else if nons el.tag = lit "style" ∧ textTruthy el then
    styleTextOccs (el.text.getD [])
   else
    []) ++
  (match lookupAttr el (lit "style") with
   | some v => styleAttrOccs v
   | none => [])

/-! ## The `Parser` object: `get_source`, `parse`, `elements`

The stateful part of the class is modelled as explicit state passing.
A file-like source is abstracted as a flag for `hasattr(source, 'read')`
plus the document (the element sequence, in `context_tree.iter()` order)
that `lxml.html.parse` would build from it.  The errors the source can
raise are `ParseError` (from `.exceptions`), `RuntimeError` and
`AssertionError` (from the bare `assert` statements; `parse` also builds —
but never raises — a `TypeError` for a non-`HTMLParser` argument, a no-op
expression statement in the source). -/

inductive PyErr where
  | parseError : String → PyErr
  | runtimeError : String → PyErr
  | assertionError : String → PyErr
deriving DecidableEq

/-- The `utx` attribute (`UrlTransformer`) a subclass provides. -/
structure UrlTransformer where
  base_path : Option Str
  base_url : Option Str

/-- A file-like source: whether it has a `read` method, and the document
`lxml` parses out of it. -/
structure FileSource where
  hasRead : Bool
  doc : List Elem

/-- The `Parser.__slots__` state, plus the two attributes looked up with
`getattr` (`utx` and the `make_element` factory), absent on the base
class.  `Obj` is the type of whatever the caller's factory builds. -/
structure ParserState (Obj : Type) where
  utx : Option UrlTransformer
  source : Option FileSource
  parseComplete : Bool
  root : Option (List Elem)
  stack : List Obj
  make_element : Option (Elem → Option Str → Option Str → Nat → Option Obj)

/-- `Parser.get_source`: `ParseError` unless a source with a `read`
method has been set. -/
def get_source {Obj : Type} (st : ParserState Obj) : Except PyErr FileSource :=
  match st.source with
  | none => .error (.parseError "Source is not defined or doesn't have a read method!")
  | some s =>
    if s.hasRead then .ok s
    else .error (.parseError "Source is not defined or doesn't have a read method!")

/-- `Parser.parse`: assert the transformer and its base path/url, fetch the
source, assert a callable factory, build the tree, and push
`factory(elem, attr, url, pos)` for every yielded occurrence, skipping the
occurrences for which the factory returns `None`. -/
def parseMethod {Obj : Type} (uj : Str → Str → Str) (single multi : List Str)
    (st : ParserState Obj) : Except PyErr (ParserState Obj) :=
  match st.utx with
  | none => .error (.assertionError "UrlTransformer not Implemented.")
  | some u =>
    if u.base_path = none then .error (.assertionError "Base Path is not set!")
    else if u.base_url = none then .error (.assertionError "Base url is not Set!")
    else
      match get_source st with
      | .error e => .error e
      | .ok s =>
        match st.make_element with
        | none => .error (.assertionError "Element generator is not callable!")
        | some f =>
          .ok { st with
                root := some s.doc
                parseComplete := true
                stack := st.stack ++ s.doc.flatMap (fun el =>
                  (handle_lxml_elem uj single multi el).filterMap (fun oc =>
                    f el oc.attr oc.url oc.pos)) }

/-- The `Parser.elements` property: `RuntimeError` on a desynchronised
completion flag, otherwise parse on demand, then `ParseError` if there is
still no root, else the element stack. -/
def elementsProperty {Obj : Type} (uj : Str → Str → Str) (single multi : List Str)
    (st : ParserState Obj) : Except PyErr (ParserState Obj × List Obj) :=
  if st.parseComplete ∧ st.root = none then
    .error (.runtimeError "Synchronising error between parse flag and actual parsing.")
  else if st.parseComplete then
    match st.root with
    | none => .error (.parseError "Tree not parsed yet!")
    | some _ => .ok (st, st.stack)
  else
    match parseMethod uj single multi st with
    | .error e => .error e
    | .ok st' =>
      match st'.root with
      | none => .error (.parseError "Tree not parsed yet!")
      | some _ => .ok (st', st'.stack)

/-! ## RewriteApplier

Modelled from the spec: the RewriteApplier component (spec §4.4) has no
counterpart in the source tree at hand.  Following the spec's words: given
an original string and a list of edits `(offset, old_length, new_text)`,
edits must be non-overlapping, in strictly descending offset order, and
in bounds; violating this fails loudly before any splicing and no output
string is produced; on success the edits are spliced in order. -/

structure Edit where
  offset : Nat
  old_length : Nat
  new_text : Str
deriving DecidableEq

/-- The RewriteApplier precondition: strictly descending offsets,
non-overlapping spans, every span in bounds. -/
def editsValid (len : Nat) : List Edit → Bool
  | [] => true
  | [e] => e.offset + e.old_length ≤ len
  | e1 :: e2 :: rest =>
    e1.offset + e1.old_length ≤ len ∧ e2.offset < e1.offset ∧
      e2.offset + e2.old_length ≤ e1.offset ∧ editsValid len (e2 :: rest)

/-- One splice. -/
def splice (s : Str) (e : Edit) : Str :=
  s.take e.offset ++ e.new_text ++ s.drop (e.offset + e.old_length)

/-- Modelled from the spec: `RewriteApplier.apply` — validate the whole
edit list first, failing loudly with no output, then splice sequentially. -/
def rewriteApply (s : Str) (edits : List Edit) : Except String Str :=
  if editsValid s.length edits then
    .ok (edits.foldl splice s)
  else
    .error "RewriteApplier: edits must be non-overlapping and in strictly descending offset order"

/-! ## Concrete instantiations used in closed statements -/

/-- A concrete stand-in for the abstract `urljoin` parameter in closed
statements whose inputs never trigger resolution. -/
def idJoin : Str → Str → Str := fun _ v => v

/-- A concrete resolution function (plain concatenation) exhibiting the
`codebase` resolution in closed statements. -/
def catJoin : Str → Str → Str := fun cb v => cb ++ v

/-! ## Parser-state fixtures -/

/-- A freshly `__init__`-ed base `Parser`. -/
def freshParser : ParserState Occ := ⟨none, none, false, none, [], none⟩

/-- A source object without a `read` method. -/
def noReadSource : FileSource := ⟨false, []⟩

/-- A parser whose source has no `read` method. -/
def noReadParser : ParserState Occ := ⟨none, some noReadSource, false, none, [], none⟩

/-- A fully configured `UrlTransformer`. -/
def readyUtx : UrlTransformer := ⟨some [], some []⟩

/-- A parser with a transformer but no source. -/
def utxOnlyParser : ParserState Occ := ⟨some readyUtx, none, false, none, [], none⟩

/-- An img element fixture. -/
def imgElem : Elem := ⟨lit "img", [(lit "src", lit "pic.png")], none⟩

/-- A factory that materialises occurrences unchanged. -/
def occFactory : Elem → Option Str → Option Str → Nat → Option Occ :=
  fun _ a u p => some ⟨a, u, p⟩

/-- A readable source holding a one-element document. -/
def readySource : FileSource := ⟨true, [imgElem]⟩

/-- A fully configured parser about to parse. -/
def readyParser : ParserState Occ :=
  ⟨some readyUtx, some readySource, false, none, [], some occFactory⟩

/-- The state after `readyParser` parses with `single = [src]`. -/
def parsedParser : ParserState Occ :=
  ⟨some readyUtx, some readySource, true, some [imgElem],
    [⟨some (lit "src"), some (lit "pic.png"), 0⟩], some occFactory⟩

/-- `parse` with no transformer fails its first assertion. -/
theorem parseMethod_utx_none {Obj : Type} (uj : Str → Str → Str)
    (single multi : List Str) (st : ParserState Obj) (h : st.utx = none) :
    parseMethod uj single multi st =
      .error (.assertionError "UrlTransformer not Implemented.") := by
  unfold parseMethod
  rw [h]

/-- `parse` with a transformer: the remaining checks. -/
theorem parseMethod_utx_some {Obj : Type} (uj : Str → Str → Str)
    (single multi : List Str) (st : ParserState Obj) (u : UrlTransformer)
    (h : st.utx = some u) :
    parseMethod uj single multi st =
      (if u.base_path = none then .error (.assertionError "Base Path is not set!")
       else if u.base_url = none then .error (.assertionError "Base url is not Set!")
       else
        match get_source st with
        | .error e => .error e
        | .ok s =>
          match st.make_element with
          | none => .error (.assertionError "Element generator is not callable!")
          | some f =>
            .ok { st with
                  root := some s.doc, parseComplete := true,
                  stack := st.stack ++ s.doc.flatMap (fun el =>
                    (handle_lxml_elem uj single multi el).filterMap (fun oc =>
                      f el oc.attr oc.url oc.pos)) }) := by
  unfold parseMethod
  rw [h]

/-! ## Generic list facts used by the proofs -/

theorem dropWhile_eq_drop (p : α → Bool) (l : List α) :
    l.dropWhile p = l.drop (l.takeWhile p).length := by
  conv_lhs =>
    rw [show l.dropWhile p = (l.takeWhile p ++ l.dropWhile p).drop (l.takeWhile p).length from
      (List.drop_left _ _).symm]
  rw [List.takeWhile_append_dropWhile]

theorem take_of_isPre {g l : Str} (h : g <+: l) : l.take g.length = g := by
  obtain ⟨t, rfl⟩ := h
  exact List.take_left g t

theorem isPre_head {g l : Str} {c : Char} (h : g <+: l) (hc : g.head? = some c) :
    l.head? = some c := by
  obtain ⟨t, rfl⟩ := h
  cases g with
  | nil => simp at hc
  | cons x xs => simpa using hc

theorem isPre_drop_one {g l : Str} (h : g <+: l) (hg : g ≠ []) :
    g.drop 1 <+: l.drop 1 := by
  obtain ⟨t, rfl⟩ := h
  cases g with
  | nil => simp at hg
  | cons x xs => exact ⟨t, by simp⟩

theorem takeWhilePre (p : α → Bool) (l : List α) : l.takeWhile p <+: l :=
  ⟨l.dropWhile p, List.takeWhile_append_dropWhile p l⟩

theorem revDropTrailingPre (p : Char → Bool) (l : Str) :
    (l.reverse.dropWhile p).reverse <+: l := by
  obtain ⟨t, ht⟩ := List.dropWhile_suffix (l := l.reverse) p
  exact ⟨t.reverse, by rw [← List.reverse_append, ht, List.reverse_reverse]⟩

/-! ## Properties of `pyStrip` and `unquote_match` -/

theorem pyStrip_sub (l : Str) :
    pyStrip l <+: l.drop ((l.takeWhile isPySpace).length) := by
  unfold pyStrip
  rw [← dropWhile_eq_drop]
  exact revDropTrailingPre _ _

theorem pyStrip_pre_of_head (l : Str)
    (h : ∀ c, l.head? = some c → isPySpace c = false) : pyStrip l <+: l := by
  have hdw : l.dropWhile isPySpace = l := by
    cases l with
    | nil => rfl
    | cons x xs =>
      rw [List.dropWhile_cons_of_neg]
      simpa using h x rfl
  unfold pyStrip
  rw [hdw]
  exact revDropTrailingPre _ _

theorem unquote_pos (s : Str) (p : Nat) :
    (unquote_match s p).2 = p ∨ ((unquote_match s p).2 = p + 1 ∧ s ≠ []) := by
  unfold unquote_match
  split
  · rename_i h
    refine .inr ⟨rfl, ?_⟩
    rcases h with ⟨h1, _⟩ | ⟨h1, _⟩ <;> (cases s <;> simp_all)
  · exact .inl rfl

theorem unquote_sub {g s : Str} {p : Nat} (h : g <+: s.drop p) :
    (unquote_match g p).1 <+: s.drop ((unquote_match g p).2) := by
  unfold unquote_match
  split
  · rename_i hq
    have hg : g ≠ [] := by
      intro hnil
      subst hnil
      rcases hq with ⟨h1, _⟩ | ⟨h1, _⟩ <;> simp at h1
    have h1 : g.drop 1 <+: (s.drop p).drop 1 := isPre_drop_one h hg
    have h2 : (g.drop 1).dropLast <+: g.drop 1 := List.dropLast_prefix _
    have h3 := h2.trans h1
    simpa [List.drop_drop] using h3
  · simpa using h

/-! ## The `runsAux` tokenizer: token integrity and forward order -/

theorem runsAuxF_spec (d : Char → Bool) (fuel : Nat) :
    ∀ (s : Str) (i : Nat),
    List.Pairwise (fun x y : Str × Nat => x.2 + x.1.length ≤ y.2) (runsAuxF d fuel s i) ∧
    ∀ m ∈ runsAuxF d fuel s i,
      i ≤ m.2 ∧ m.1 ≠ [] ∧ (∀ c ∈ m.1, d c = false) ∧ m.1 <+: s.drop (m.2 - i) := by
  induction fuel with
  | zero => intro s i; simp [runsAuxF]
  | succ fuel ih =>
    intro s i
    cases s with
    | nil => simp [runsAuxF]
    | cons c rest =>
      rw [runsAuxF]
      by_cases hd : d c
      · rw [if_pos hd]
        obtain ⟨ihp, ihm⟩ := ih rest (i + 1)
        refine ⟨ihp, ?_⟩
        intro m hm
        obtain ⟨h1, h2, h3, h4⟩ := ihm m hm
        refine ⟨by omega, h2, h3, ?_⟩
        have he : (c :: rest).drop (m.2 - i) = rest.drop (m.2 - (i + 1)) := by
          have hx : m.2 - i = (m.2 - (i + 1)) + 1 := by omega
          rw [hx, List.drop_succ_cons]
        rw [he]
        exact h4
      · rw [if_neg hd]
        have hd' : d c = false := by simpa using hd
        obtain ⟨ihp, ihm⟩ := ih (rest.dropWhile (fun x => !d x))
          (i + (c :: rest.takeWhile (fun x => !d x)).length)
        have hlen : (c :: rest.takeWhile (fun x => !d x)).length =
            (rest.takeWhile (fun x => !d x)).length + 1 := by simp
        constructor
        · rw [List.pairwise_cons]
          exact ⟨fun b hb => (ihm b hb).1, ihp⟩
        · intro m hm
          rcases List.mem_cons.mp hm with rfl | hm'
          · refine ⟨Nat.le_refl _, by simp, ?_, ?_⟩
            · intro x hx
              rcases List.mem_cons.mp hx with rfl | hx'
              · exact hd'
              · have := List.mem_takeWhile_imp hx'
                simpa using this
            · simp only [Nat.sub_self, List.drop_zero]
              obtain ⟨t, ht⟩ := takeWhilePre (fun x => !d x) rest
              exact ⟨t, by simp [ht]⟩
          · obtain ⟨h1, h2, h3, h4⟩ := ihm m hm'
            refine ⟨by omega, h2, h3, ?_⟩
            have he1 : rest.dropWhile (fun x => !d x) =
                rest.drop ((rest.takeWhile (fun x => !d x)).length) :=
              dropWhile_eq_drop _ _
            rw [he1, List.drop_drop] at h4
            have he2 : (c :: rest).drop (m.2 - i) =
                rest.drop ((rest.takeWhile (fun x => !d x)).length +
                  (m.2 - (i + (c :: rest.takeWhile (fun x => !d x)).length))) := by
              rw [hlen] at h1 ⊢
              have hx : m.2 - i = ((rest.takeWhile (fun x => !d x)).length +
                  (m.2 - (i + ((rest.takeWhile (fun x => !d x)).length + 1)))) + 1 := by
                omega
              rw [hx, List.drop_succ_cons]
            rw [he2]
            exact h4

theorem runsAux_spec (d : Char → Bool) (s : Str) (i : Nat) :
    List.Pairwise (fun x y : Str × Nat => x.2 + x.1.length ≤ y.2) (runsAux d s i) ∧
    ∀ m ∈ runsAux d s i,
      i ≤ m.2 ∧ m.1 ≠ [] ∧ (∀ c ∈ m.1, d c = false) ∧ m.1 <+: s.drop (m.2 - i) :=
  runsAuxF_spec d s.length s i

/-! ## The CSS scanners: group integrity and forward order -/

theorem cssQuotedGroup_some {body : Str} {gi : Str × Nat}
    (h : cssQuotedGroup body = some gi) :
    gi.1 <+: body ∧ gi.1.length = gi.2 + 2 := by
  cases body with
  | nil => simp [cssQuotedGroup] at h
  | cons q btail =>
    simp only [cssQuotedGroup, List.head?_cons] at h
    split at h
    · split at h
      · rename_i hq hcond
        obtain ⟨hc1, hc2⟩ := hcond
        simp only [List.drop_succ_cons, List.drop_zero] at h hc1 hc2
        obtain rfl : (q :: ((btail.takeWhile (fun d => d ≠ q)) ++ [q]),
            (btail.takeWhile (fun d => d ≠ q)).length) = gi := by
          simpa using h
        have hsplit : btail =
            btail.takeWhile (fun d => d ≠ q) ++
              btail.drop ((btail.takeWhile (fun d => d ≠ q)).length) := by
          conv_lhs => rw [← List.takeWhile_append_dropWhile (fun d => decide (d ≠ q)) btail]
          rw [dropWhile_eq_drop]
        have hafter : btail.drop ((btail.takeWhile (fun d => d ≠ q)).length) =
            q :: (btail.drop ((btail.takeWhile (fun d => d ≠ q)).length)).drop 1 := by
          cases ha : btail.drop ((btail.takeWhile (fun d => d ≠ q)).length) with
          | nil => rw [ha] at hc1; simp at hc1
          | cons a as =>
            rw [ha] at hc1
            simp only [List.head?_cons, Option.some.injEq] at hc1
            simp [hc1]
        constructor
        · refine ⟨(btail.drop ((btail.takeWhile (fun d => d ≠ q)).length)).drop 1, ?_⟩
          simp only [List.cons_append, List.cons.injEq, true_and]
          conv_rhs => rw [hsplit, hafter]
          simp
        · simp
      · simp at h
    · simp at h

theorem cssUrlFindF_spec (fuel : Nat) :
    ∀ (s : Str) (i : Nat),
    List.Pairwise (fun x y : Str × Nat => x.2 + x.1.length + 1 ≤ y.2) (cssUrlFindF fuel s i) ∧
    ∀ m ∈ cssUrlFindF fuel s i, i + 4 ≤ m.2 ∧ m.1 <+: s.drop (m.2 - i) := by
  induction fuel with
  | zero => intro s i; simp [cssUrlFindF]
  | succ fuel ih =>
    intro s i
    cases s with
    | nil => simp [cssUrlFindF]
    | cons c rest =>
      rw [cssUrlFindF]
      by_cases hopen : isUrlOpen (c :: rest)
      · rw [if_pos hopen]
        cases hgi : cssQuotedGroup (rest.drop 3) with
        | some gi =>
          obtain ⟨hpre, hlen⟩ := cssQuotedGroup_some hgi
          obtain ⟨ihp, ihm⟩ := ih (((rest.drop 3).drop 1).drop (gi.2 + 2))
            (i + 4 + (gi.2 + 2) + 1)
          constructor
          · rw [List.pairwise_cons]
            refine ⟨fun b hb => ?_, ihp⟩
            have hb2 := (ihm b hb).1
            show (i + 4) + gi.1.length + 1 ≤ b.2
            omega
          · intro m hm
            rcases List.mem_cons.mp hm with rfl | hm'
            · refine ⟨by omega, ?_⟩
              show gi.1 <+: (c :: rest).drop (i + 4 - i)
              have h4 : i + 4 - i = 3 + 1 := by omega
              rw [h4, Nat.add_comm 3 1, List.drop_succ_cons]
              exact hpre
            · obtain ⟨h1, h2⟩ := ihm m hm'
              refine ⟨by omega, ?_⟩
              rw [List.drop_drop, List.drop_drop, List.drop_drop] at h2
              have he : (c :: rest).drop (m.2 - i) =
                  rest.drop (3 + (1 + (gi.2 + 2 + (m.2 - (i + 4 + (gi.2 + 2) + 1))))) := by
                have hx : m.2 - i =
                    (3 + (1 + (gi.2 + 2 + (m.2 - (i + 4 + (gi.2 + 2) + 1))))) + 1 := by omega
                rw [hx, List.drop_succ_cons]
              rw [he]
              exact h2
        | none =>
          by_cases hclose : ((rest.drop 3).drop
              ((rest.drop 3).takeWhile (fun d => d ≠ ')')).length).head? = some ')'
          · rw [if_pos hclose]
            obtain ⟨ihp, ihm⟩ := ih
              ((rest.drop 3).drop (((rest.drop 3).takeWhile (fun d => d ≠ ')')).length + 1))
              (i + 4 + ((rest.drop 3).takeWhile (fun d => d ≠ ')')).length + 1)
            constructor
            · rw [List.pairwise_cons]
              refine ⟨fun b hb => ?_, ihp⟩
              have hb2 := (ihm b hb).1
              show (i + 4) + ((rest.drop 3).takeWhile (fun d => d ≠ ')')).length + 1 ≤ b.2
              omega
            · intro m hm
              rcases List.mem_cons.mp hm with rfl | hm'
              · refine ⟨by omega, ?_⟩
                show (rest.drop 3).takeWhile (fun d => d ≠ ')') <+:
                  (c :: rest).drop (i + 4 - i)
                have h4 : i + 4 - i = 3 + 1 := by omega
                rw [h4, Nat.add_comm 3 1, List.drop_succ_cons]
                exact takeWhilePre _ _
              · obtain ⟨h1, h2⟩ := ihm m hm'
                refine ⟨by omega, ?_⟩
                rw [List.drop_drop, List.drop_drop] at h2
                have he : (c :: rest).drop (m.2 - i) =
                    rest.drop (3 + (((rest.drop 3).takeWhile (fun d => d ≠ ')')).length + 1 +
                      (m.2 - (i + 4 + ((rest.drop 3).takeWhile (fun d => d ≠ ')')).length + 1)))) := by
                  have hx : m.2 - i =
                      (3 + (((rest.drop 3).takeWhile (fun d => d ≠ ')')).length + 1 +
                        (m.2 - (i + 4 + ((rest.drop 3).takeWhile (fun d => d ≠ ')')).length + 1)))) + 1 := by
                    omega
                  rw [hx, List.drop_succ_cons]
                rw [he]
                exact h2
          · rw [if_neg hclose]
            obtain ⟨ihp, ihm⟩ := ih rest (i + 1)
            refine ⟨ihp, fun m hm => ?_⟩
            obtain ⟨h1, h2⟩ := ihm m hm
            refine ⟨by omega, ?_⟩
            have he : (c :: rest).drop (m.2 - i) = rest.drop (m.2 - (i + 1)) := by
              have hx : m.2 - i = (m.2 - (i + 1)) + 1 := by omega
              rw [hx, List.drop_succ_cons]
            rw [he]
            exact h2
      · rw [if_neg hopen]
        obtain ⟨ihp, ihm⟩ := ih rest (i + 1)
        refine ⟨ihp, fun m hm => ?_⟩
        obtain ⟨h1, h2⟩ := ihm m hm
        refine ⟨by omega, ?_⟩
        have he : (c :: rest).drop (m.2 - i) = rest.drop (m.2 - (i + 1)) := by
          have hx : m.2 - i = (m.2 - (i + 1)) + 1 := by omega
          rw [hx, List.drop_succ_cons]
        rw [he]
        exact h2

theorem cssUrlFind_spec (s : Str) (i : Nat) :
    List.Pairwise (fun x y : Str × Nat => x.2 + x.1.length + 1 ≤ y.2) (cssUrlFind s i) ∧
    ∀ m ∈ cssUrlFind s i, i + 4 ≤ m.2 ∧ m.1 <+: s.drop (m.2 - i) :=
  cssUrlFindF_spec s.length s i

theorem cssImportFindF_spec (fuel : Nat) :
    ∀ (s : Str) (i : Nat),
    ∀ m ∈ cssImportFindF fuel s i, i + 9 ≤ m.2 ∧ m.1 <+: s.drop (m.2 - i) := by
  induction fuel with
  | zero => intro s i; simp [cssImportFindF]
  | succ fuel ih =>
    intro s i
    cases s with
    | nil => simp [cssImportFindF]
    | cons c rest =>
      rw [cssImportFindF]
      by_cases hopen : isImportOpen (c :: rest)
      · rw [if_pos hopen]
        by_cases hclose : ((rest.drop 8).drop
            ((rest.drop 8).takeWhile (fun d => d ≠ '"' ∧ d ≠ '\n')).length).head? = some '"'
        · rw [if_pos hclose]
          intro m hm
          rcases List.mem_cons.mp hm with rfl | hm'
          · refine ⟨by omega, ?_⟩
            show (rest.drop 8).takeWhile (fun d => d ≠ '"' ∧ d ≠ '\n') <+:
              (c :: rest).drop (i + 9 - i)
            have h9 : i + 9 - i = 8 + 1 := by omega
            rw [h9, Nat.add_comm 8 1, List.drop_succ_cons]
            exact takeWhilePre _ _
          · obtain ⟨h1, h2⟩ := ih _ _ m hm'
            refine ⟨by omega, ?_⟩
            rw [List.drop_drop, List.drop_drop] at h2
            have he : (c :: rest).drop (m.2 - i) =
                rest.drop (8 + (((rest.drop 8).takeWhile (fun d => d ≠ '"' ∧ d ≠ '\n')).length + 1 +
                  (m.2 - (i + 9 + ((rest.drop 8).takeWhile (fun d => d ≠ '"' ∧ d ≠ '\n')).length + 1)))) := by
              have hx : m.2 - i =
                  (8 + (((rest.drop 8).takeWhile (fun d => d ≠ '"' ∧ d ≠ '\n')).length + 1 +
                    (m.2 - (i + 9 + ((rest.drop 8).takeWhile (fun d => d ≠ '"' ∧ d ≠ '\n')).length + 1)))) + 1 := by
                omega
              rw [hx, List.drop_succ_cons]
            rw [he]
            exact h2
        · rw [if_neg hclose]
          intro m hm
          obtain ⟨h1, h2⟩ := ih _ _ m hm
          refine ⟨by omega, ?_⟩
          have he : (c :: rest).drop (m.2 - i) = rest.drop (m.2 - (i + 1)) := by
            have hx : m.2 - i = (m.2 - (i + 1)) + 1 := by omega
            rw [hx, List.drop_succ_cons]
          rw [he]
          exact h2
      · rw [if_neg hopen]
        intro m hm
        obtain ⟨h1, h2⟩ := ih _ _ m hm
        refine ⟨by omega, ?_⟩
        have he : (c :: rest).drop (m.2 - i) = rest.drop (m.2 - (i + 1)) := by
          have hx : m.2 - i = (m.2 - (i + 1)) + 1 := by omega
          rw [hx, List.drop_succ_cons]
        rw [he]
        exact h2

theorem cssImportFind_spec (s : Str) (i : Nat) :
    ∀ m ∈ cssImportFind s i, i + 9 ≤ m.2 ∧ m.1 <+: s.drop (m.2 - i) :=
  cssImportFindF_spec s.length s i

/-! ## The tuple order used by `urls.sort(reverse=True)` -/

theorem charListLe_total (x y : Str) : charListLe x y = true ∨ charListLe y x = true := by
  induction x generalizing y with
  | nil => left; rfl
  | cons a as ih =>
    cases y with
    | nil => right; rfl
    | cons b bs =>
      by_cases h1 : a.val.toNat < b.val.toNat
      · left; simp [charListLe, h1]
      · by_cases h2 : b.val.toNat < a.val.toNat
        · right; simp [charListLe, h2]
        · rcases ih bs with h | h
          · left; simp [charListLe, h1, h2, h]
          · right; simp [charListLe, h1, h2, h]

theorem charListLe_trans {x y z : Str} (hxy : charListLe x y = true)
    (hyz : charListLe y z = true) : charListLe x z = true := by
  induction x generalizing y z with
  | nil => rfl
  | cons a as ih =>
    cases y with
    | nil => simp [charListLe] at hxy
    | cons b bs =>
      cases z with
      | nil => simp [charListLe] at hyz
      | cons c cs =>
        simp only [charListLe] at hxy hyz ⊢
        rcases Nat.lt_trichotomy a.val.toNat b.val.toNat with h1 | h1 | h1
        · rcases Nat.lt_trichotomy b.val.toNat c.val.toNat with h2 | h2 | h2
          · have h3 : a.val.toNat < c.val.toNat := by omega
            simp [h3]
          · have h3 : a.val.toNat < c.val.toNat := by omega
            simp [h3]
          · rw [if_neg (by omega), if_pos h2] at hyz
            exact absurd hyz (by simp)
        · rw [if_neg (by omega), if_neg (by omega)] at hxy
          rcases Nat.lt_trichotomy b.val.toNat c.val.toNat with h2 | h2 | h2
          · have h3 : a.val.toNat < c.val.toNat := by omega
            simp [h3]
          · rw [if_neg (by omega), if_neg (by omega)] at hyz
            rw [if_neg (by omega), if_neg (by omega)]
            exact ih hxy hyz
          · rw [if_neg (by omega), if_pos h2] at hyz
            exact absurd hyz (by simp)
        · rw [if_neg (by omega), if_pos h1] at hxy
          exact absurd hxy (by simp)

instance : IsTotal (Nat × Str) cssGe where
  total a b := by
    unfold cssGe
    rcases Nat.lt_trichotomy a.1 b.1 with h | h | h
    · right; left; exact h
    · rcases charListLe_total a.2 b.2 with hc | hc
      · right; right; exact ⟨h, hc⟩
      · left; right; exact ⟨h.symm, hc⟩
    · left; left; exact h

instance : IsTrans (Nat × Str) cssGe where
  trans a b c hab hbc := by
    unfold cssGe at *
    rcases hab with h1 | ⟨h1, h1'⟩ <;> rcases hbc with h2 | ⟨h2, h2'⟩
    · left; omega
    · left; omega
    · left; omega
    · right; exact ⟨h2.trans h1, charListLe_trans h2' h1'⟩

/-! ## The meta-refresh search: group integrity -/

theorem dotStarEnd_some {t0 : Str} {t : Nat} {g : Str} {p : Nat}
    (h : dotStarEnd t0 t = some (g, p)) : p = t ∧ g <+: t0 := by
  unfold dotStarEnd at h
  split at h
  · exact absurd h (by simp)
  · split at h
    · obtain ⟨rfl, rfl⟩ : t0.dropLast = g ∧ t = p := by
        simpa using h
      exact ⟨rfl, List.dropLast_prefix t0⟩
    · obtain ⟨rfl, rfl⟩ : t0 = g ∧ t = p := by
        simpa using h
      exact ⟨rfl, ⟨[], by simp⟩⟩

theorem head_dropWhile_ps {l : Str} {c : Char}
    (h : (l.dropWhile isPySpace).head? = some c) : isPySpace c = false := by
  have hx := List.head?_dropWhile_not isPySpace l
  rw [h] at hx
  exact hx

theorem refreshTailUrl_some {r1 : Str} {a : Nat} {g : Str} {p : Nat}
    (h : refreshTailUrl r1 a = some (g, p)) :
    a ≤ p ∧ g <+: r1.drop (p - a) ∧
      (∀ c, g.head? = some c → isPySpace c = false ∨ r1.head? = some c) := by
  unfold refreshTailUrl at h
  split at h
  · obtain ⟨rfl, hpre⟩ := dotStarEnd_some h
    refine ⟨by omega, ?_, ?_⟩
    · have he : (((r1.drop 3).dropWhile isPySpace).drop 1).dropWhile isPySpace =
          r1.drop (3 + ((r1.drop 3).takeWhile isPySpace).length + 1 +
            ((((r1.drop 3).dropWhile isPySpace).drop 1).takeWhile isPySpace).length) := by
        rw [dropWhile_eq_drop, dropWhile_eq_drop (l := (r1.drop 3))]
        rw [List.drop_drop, List.drop_drop, List.drop_drop]
        congr 1
        omega
      rw [he] at hpre
      have hidx : a + 3 + ((r1.drop 3).takeWhile isPySpace).length + 1 +
          ((((r1.drop 3).dropWhile isPySpace).drop 1).takeWhile isPySpace).length - a =
          3 + ((r1.drop 3).takeWhile isPySpace).length + 1 +
            ((((r1.drop 3).dropWhile isPySpace).drop 1).takeWhile isPySpace).length := by
        omega
      rw [hidx]
      exact hpre
    · intro c hcg
      exact .inl (head_dropWhile_ps (isPre_head hpre hcg))
  · obtain ⟨rfl, hpre⟩ := dotStarEnd_some h
    refine ⟨Nat.le_refl _, ?_, ?_⟩
    · simpa using hpre
    · intro c hcg
      exact .inr (isPre_head hpre hcg)

theorem refreshTail_some {t : Str} {base : Nat} {g : Str} {p : Nat}
    (h : refreshTail t base = some (g, p)) :
    base ≤ p ∧ g <+: t.drop (p - base) ∧
      ∀ c, g.head? = some c → isPySpace c = false := by
  have hdw : t.dropWhile isPySpace = t.drop ((t.takeWhile isPySpace).length) :=
    dropWhile_eq_drop _ _
  unfold refreshTail at h
  split at h
  · obtain ⟨hle, hpre, hhead⟩ := refreshTailUrl_some h
    refine ⟨by omega, ?_, ?_⟩
    · rw [hdw, List.drop_drop] at hpre
      have hidx : (t.takeWhile isPySpace).length +
          (p - (base + (t.takeWhile isPySpace).length)) = p - base := by omega
      rw [hidx] at hpre
      exact hpre
    · intro c hcg
      rcases hhead c hcg with hc | hc
      · exact hc
      · exact head_dropWhile_ps hc
  · obtain ⟨rfl, hpre⟩ := dotStarEnd_some h
    refine ⟨by omega, ?_, ?_⟩
    · rw [hdw] at hpre
      have hidx : base + (t.takeWhile isPySpace).length - base =
          (t.takeWhile isPySpace).length := by omega
      rw [hidx]
      exact hpre
    · intro c hcg
      exact head_dropWhile_ps (isPre_head hpre hcg)

theorem parse_meta_refresh_url_some {s : Str} :
    ∀ {i g p}, parse_meta_refresh_url s i = some (g, p) →
      i ≤ p ∧ g <+: s.drop (p - i) ∧ ∀ c, g.head? = some c → isPySpace c = false := by
  induction s with
  | nil => intro i g p h; simp [parse_meta_refresh_url] at h
  | cons c rest ih =>
    intro i g p h
    rw [parse_meta_refresh_url] at h
    by_cases hc : c = ';'
    · rw [if_pos hc] at h
      cases hr : refreshTail rest (i + 1) with
      | some r =>
        rw [hr] at h
        obtain rfl : r = (g, p) := by simpa using h
        obtain ⟨hle, hpre, hhead⟩ := refreshTail_some hr
        refine ⟨by omega, ?_, hhead⟩
        have he : (c :: rest).drop (p - i) = rest.drop (p - (i + 1)) := by
          have hx : p - i = (p - (i + 1)) + 1 := by omega
          rw [hx, List.drop_succ_cons]
        rw [he]
        exact hpre
      | none =>
        rw [hr] at h
        obtain ⟨hle, hpre, hhead⟩ := ih h
        refine ⟨by omega, ?_, hhead⟩
        have he : (c :: rest).drop (p - i) = rest.drop (p - (i + 1)) := by
          have hx : p - i = (p - (i + 1)) + 1 := by omega
          rw [hx, List.drop_succ_cons]
        rw [he]
        exact hpre
    · rw [if_neg hc] at h
      obtain ⟨hle, hpre, hhead⟩ := ih h
      refine ⟨by omega, ?_, hhead⟩
      have he : (c :: rest).drop (p - i) = rest.drop (p - (i + 1)) := by
        have hx : p - i = (p - (i + 1)) + 1 := by omega
        rw [hx, List.drop_succ_cons]
      rw [he]
      exact hpre

/-! ## `listFind` (Python `str.find`) -/

theorem listFind_sound {s pat : Str} :
    ∀ {k}, listFind s pat = some k → pat <+: s.drop k := by
  induction s with
  | nil =>
    intro k h
    rw [listFind] at h
    split at h
    · rename_i hp
      obtain rfl : (0 : Nat) = k := by simpa using h
      simpa using List.isPrefixOf_iff_prefix.mp hp
    · simp at h
  | cons c rest ih =>
    intro k h
    rw [listFind] at h
    split at h
    · rename_i hp
      obtain rfl : (0 : Nat) = k := by simpa using h
      simpa using List.isPrefixOf_iff_prefix.mp hp
    · simp only [Option.map_eq_some'] at h
      obtain ⟨k', hk', rfl⟩ := h
      have := ih hk'
      simpa [List.drop_succ_cons] using this

theorem listFind_isSome {s pat : Str} {j : Nat} (h : pat <+: s.drop j) :
    (listFind s pat).isSome := by
  induction s generalizing j with
  | nil =>
    have hp : pat <+: [] := by simpa using h
    rw [listFind]
    rw [if_pos (List.isPrefixOf_iff_prefix.mpr (by simpa using hp))]
    rfl
  | cons c rest ih =>
    rw [listFind]
    split
    · rfl
    · cases j with
      | zero =>
        rename_i hp
        rw [List.drop_zero] at h
        exact absurd (List.isPrefixOf_iff_prefix.mpr h) hp
      | succ j' =>
        rw [List.drop_succ_cons] at h
        have := ih h
        simpa using this


/-! ## Descending emission order and span exactness of the builders -/

theorem unquote_pos_bounds (s : Str) (p : Nat) :
    p ≤ (unquote_match s p).2 ∧ (unquote_match s p).2 ≤ p + 1 := by
  rcases unquote_pos s p with h | ⟨h, _⟩ <;> omega

theorem srcsetOccs_desc (v : Str) :
    List.Pairwise (fun x y : Str × Nat => y.2 < x.2) (srcsetOccs v) := by
  have hs := runsAux_spec isSrcsetDelim v 0
  have hp : List.Pairwise (fun x y : Str × Nat => x.2 + x.1.length ≤ y.2)
      (iter_srcset_urls v) :=
    hs.1.sublist (List.filter_sublist _)
  have hlen : ∀ m ∈ iter_srcset_urls v, 5 ≤ m.1.length := fun m hm => by
    have h2 := (List.mem_filter.mp hm).2
    simpa using h2
  have hp5 : List.Pairwise (fun x y : Str × Nat => x.2 + 5 ≤ y.2) (iter_srcset_urls v) :=
    hp.imp_of_mem (fun ha hb hr => by
      have h5 := hlen _ ha
      omega)
  unfold srcsetOccs
  rw [List.pairwise_map, List.pairwise_reverse]
  refine hp5.imp_of_mem (fun ha hb hr => ?_)
  rename_i a b
  show (unquote_match (pyStrip a.1) a.2).2 < (unquote_match (pyStrip b.1) b.2).2
  have hb1 := (unquote_pos_bounds (pyStrip a.1) a.2).2
  have hb2 := (unquote_pos_bounds (pyStrip b.1) b.2).1
  omega

theorem styleAttrOccs_spec (v : Str) :
    List.Pairwise (fun x y : Occ => y.pos < x.pos) (styleAttrOccs v) ∧
    ∀ o ∈ styleAttrOccs v, o.attr = some (lit "style") ∧
      ∃ u, o.url = some u ∧ (v.drop o.pos).take u.length = u := by
  obtain ⟨hp, hmem⟩ := cssUrlFind_spec v 0
  constructor
  · unfold styleAttrOccs
    rw [List.pairwise_map, List.pairwise_reverse]
    refine hp.imp_of_mem (fun ha hb hr => ?_)
    rename_i a b
    show (unquote_match a.1 a.2).2 < (unquote_match b.1 b.2).2
    have hb2 := (unquote_pos_bounds b.1 b.2).1
    rcases unquote_pos a.1 a.2 with h | ⟨h, hne⟩
    · omega
    · have h1 : 1 ≤ a.1.length := List.length_pos.mpr hne
      omega
  · intro o ho
    unfold styleAttrOccs at ho
    rw [List.mem_map] at ho
    obtain ⟨m, hm, rfl⟩ := ho
    have hmm := hmem m (List.mem_reverse.mp hm)
    have hpre : m.1 <+: v.drop m.2 := by
      have := hmm.2
      rwa [Nat.sub_zero] at this
    exact ⟨rfl, (unquote_match m.1 m.2).1, rfl, take_of_isPre (unquote_sub hpre)⟩

theorem styleTextOccs_spec (t : Str) :
    List.Pairwise (fun x y : Occ => y.pos ≤ x.pos) (styleTextOccs t) ∧
    ∀ o ∈ styleTextOccs t, o.attr = none ∧
      ∃ u, o.url = some u ∧ (t.drop o.pos).take u.length = u := by
  constructor
  · unfold styleTextOccs
    rw [List.pairwise_map]
    have hsorted := List.sorted_insertionSort cssGe
      (((iter_css_urls t).map (fun m =>
          ((unquote_match m.1 m.2).2, (unquote_match m.1 m.2).1))) ++
        (iter_css_imports t).map (fun m => (m.2, m.1)))
    refine List.Pairwise.imp ?_ hsorted
    intro a b hab
    show b.1 ≤ a.1
    rcases hab with h | ⟨h, _⟩ <;> omega
  · intro o ho
    unfold styleTextOccs at ho
    rw [List.mem_map] at ho
    obtain ⟨pu, hpu, rfl⟩ := ho
    have hpu2 := (List.perm_insertionSort cssGe _).subset hpu
    rcases List.mem_append.mp hpu2 with hl | hr
    · rw [List.mem_map] at hl
      obtain ⟨m, hm, rfl⟩ := hl
      obtain ⟨_, hpre⟩ := (cssUrlFind_spec t 0).2 m hm
      rw [Nat.sub_zero] at hpre
      exact ⟨rfl, (unquote_match m.1 m.2).1, rfl, take_of_isPre (unquote_sub hpre)⟩
    · rw [List.mem_map] at hr
      obtain ⟨m, hm, rfl⟩ := hr
      obtain ⟨_, hpre⟩ := cssImportFind_spec t 0 m hm
      rw [Nat.sub_zero] at hpre
      exact ⟨rfl, m.1, rfl, take_of_isPre hpre⟩

/-! ## The meta-refresh url is a span of `content` -/

theorem metaRawUrl_sub (content : Str) :
    metaRawUrl content <+: content.drop (metaPos content) := by
  unfold metaRawUrl metaPos
  cases hm : parse_meta_refresh_url content 0 with
  | some gp =>
    obtain ⟨gp1, gp2⟩ := gp
    obtain ⟨_, hpre, hhead⟩ := parse_meta_refresh_url_some hm
    rw [Nat.sub_zero] at hpre
    exact (pyStrip_pre_of_head gp1 hhead).trans hpre
  | none =>
    show pyStrip content <+: content.drop ((listFind content (metaRawUrl content)).getD 0)
    have hmr : metaRawUrl content = pyStrip content := by
      unfold metaRawUrl
      rw [hm]
    rw [hmr]
    have hsub := pyStrip_sub content
    obtain ⟨idx, hidx⟩ := Option.isSome_iff_exists.mp (listFind_isSome hsub)
    rw [hidx]
    simpa using listFind_sound hidx

/-! ## Attribute-wise filtering helpers -/

theorem attr_filter_eq_nil {l : List Occ} {a : Str}
    (h : ∀ o ∈ l, o.attr ≠ some a) :
    l.filter (fun o => o.attr == some a) = [] := by
  rw [List.filter_eq_nil_iff]
  intro o ho
  simp only [beq_iff_eq]
  exact h o ho

theorem singleOccs_filter (el : Elem) (a v : Str) (single : List Str)
    (hv : lookupAttr el a = some v) :
    (singleOccs single el).filter (fun o => o.attr == some a) =
      List.replicate (single.count a) (⟨some a, some v, 0⟩ : Occ) := by
  induction single with
  | nil => rfl
  | cons b rest ih =>
    unfold singleOccs at ih ⊢
    rw [List.filterMap_cons]
    by_cases hb : b = a
    · subst hb
      rw [hv]
      simp only [Option.map_some']
      rw [List.filter_cons]
      have hbeq : ((⟨some b, some v, 0⟩ : Occ).attr == some b) = true := by
        simp
      rw [if_pos hbeq]
      rw [ih]
      have hc : (b :: rest).count b = rest.count b + 1 := by
        rw [List.count_cons]
        simp
      rw [hc, List.replicate_succ]
    · have hc : (b :: rest).count a = rest.count a := by
        rw [List.count_cons]
        have : (b == a) = false := by
          simpa using hb
        simp [this]
      rw [hc]
      cases hlb : lookupAttr el b with
      | none =>
        simpa using ih
      | some w =>
        simp only [Option.map_some']
        rw [List.filter_cons]
        have hbeq : ((⟨some b, some w, 0⟩ : Occ).attr == some a) = false := by
          simpa using hb
        rw [if_neg (by simp [hbeq])]
        exact ih

theorem listAttrOccs_filter {el : Elem} {a : Str} {multi : List Str}
    (h : a ∉ multi) :
    (listAttrOccs multi el).filter (fun o => o.attr == some a) = [] := by
  apply attr_filter_eq_nil
  intro o ho
  unfold listAttrOccs at ho
  rw [List.mem_flatMap] at ho
  obtain ⟨b, hb, hob⟩ := ho
  cases hlb : lookupAttr el b with
  | none => rw [hlb] at hob; simp at hob
  | some v =>
    rw [hlb] at hob
    rw [List.mem_map] at hob
    obtain ⟨r, hr, rfl⟩ := hob
    simp only [ne_eq, Option.some.injEq]
    intro hba
    exact h (hba ▸ hb)

theorem metaContentOccs_attr (el : Elem) :
    ∀ o ∈ metaContentOccs el, o.attr = some (lit "content") := by
  intro o ho
  unfold metaContentOccs at ho
  split at ho
  · simp at ho
  · rw [List.mem_singleton] at ho
    subst ho
    rfl

theorem metaOccs_attr (el : Elem) :
    ∀ o ∈ metaOccs el, o.attr = some (lit "content") := by
  intro o ho
  unfold metaOccs at ho
  split at ho
  · exact metaContentOccs_attr el o ho
  · simp at ho

theorem paramOccs_attr (el : Elem) :
    ∀ o ∈ paramOccs el, o.attr = some (lit "value") := by
  intro o ho
  unfold paramOccs at ho
  split at ho
  · rw [List.mem_singleton] at ho
    subst ho
    rfl
  · simp at ho

theorem singleOccs_filter_none (el : Elem) (a : Str) (single : List Str)
    (hv : lookupAttr el a = none) :
    (singleOccs single el).filter (fun o => o.attr == some a) = [] := by
  apply attr_filter_eq_nil
  intro o ho
  unfold singleOccs at ho
  rw [List.mem_filterMap] at ho
  obtain ⟨b, hb, hob⟩ := ho
  cases hlb : lookupAttr el b with
  | none => rw [hlb] at hob; simp at hob
  | some w =>
    rw [hlb] at hob
    simp only [Option.map_some', Option.some.injEq] at hob
    subst hob
    simp only [ne_eq, Option.some.injEq]
    intro hba
    subst hba
    rw [hlb] at hv
    exact absurd hv (by simp)

theorem listAttrOccs_filter_none (el : Elem) (a : Str) (multi : List Str)
    (hv : lookupAttr el a = none) :
    (listAttrOccs multi el).filter (fun o => o.attr == some a) = [] := by
  apply attr_filter_eq_nil
  intro o ho
  unfold listAttrOccs at ho
  rw [List.mem_flatMap] at ho
  obtain ⟨b, hb, hob⟩ := ho
  cases hlb : lookupAttr el b with
  | none => rw [hlb] at hob; simp at hob
  | some w =>
    rw [hlb] at hob
    rw [List.mem_map] at hob
    obtain ⟨r, hr, rfl⟩ := hob
    simp only [ne_eq, Option.some.injEq]
    intro hba
    subst hba
    rw [hlb] at hv
    exact absurd hv (by simp)

/-! ## Claims -/

/-- C1: within one source string — a multi-URL attribute value such as
`srcset`, a style element's text, or a style attribute value — whenever the
scanner produces several occurrences, it emits them in descending order of
start offset: strictly descending for the srcset and style-attribute
scanners, non-increasing for the style text (which is sorted by descending
`(offset, url)` tuples).  These three builders are exactly the sublists
`handle_lxml_elem` emits for those sources. -/
theorem c1_descending_offsets :
    (∀ v : Str, List.Pairwise (fun x y : Str × Nat => y.2 < x.2) (srcsetOccs v)) ∧
    (∀ v : Str, List.Pairwise (fun x y : Occ => y.pos < x.pos) (styleAttrOccs v)) ∧
    (∀ t : Str, List.Pairwise (fun x y : Occ => y.pos ≤ x.pos) (styleTextOccs t)) :=
  ⟨srcsetOccs_desc, fun v => (styleAttrOccs_spec v).1, fun t => (styleTextOccs_spec t).1⟩

/-- C2 counterexample: `a.jpg` is five characters long, so the ≥5-character
tokenization rule keeps it and the scanner emits an occurrence for it
(at offset 0), contrary to the claim that it is excluded. -/
theorem c2_counterexample :
    (lit "a.jpg", 0) ∈ srcsetOccs (lit "a.jpg 1x, bbbbb.jpg 2x, ccccccccc.jpg 3x") := by
  decide

/-- C2 (amended): scanning `srcset="a.jpg 1x, bbbbb.jpg 2x, ccccccccc.jpg 3x"`
yields occurrences for `a.jpg`, `bbbbb.jpg` and `ccccccccc.jpg` — each a run
of at least 5 non-space, non-comma characters, `a.jpg` included since it is
exactly 5 characters — in descending-offset order (24, 10, 0); only the short
descriptors `1x`/`2x`/`3x` are excluded by the minimum-length rule. -/
theorem c2_srcset_example :
    srcsetOccs (lit "a.jpg 1x, bbbbb.jpg 2x, ccccccccc.jpg 3x") =
      [(lit "ccccccccc.jpg", 24), (lit "bbbbb.jpg", 10), (lit "a.jpg", 0)] ∧
    handle_lxml_elem idJoin [] [lit "srcset"]
        ⟨lit "img", [(lit "srcset", lit "a.jpg 1x, bbbbb.jpg 2x, ccccccccc.jpg 3x")], none⟩ =
      [⟨some (lit "srcset"), some (lit "ccccccccc.jpg"), 24⟩,
       ⟨some (lit "srcset"), some (lit "bbbbb.jpg"), 10⟩,
       ⟨some (lit "srcset"), some (lit "a.jpg"), 0⟩] := by
  decide

/-- C5: every occurrence produced from CSS `url(...)`/`@import` scanning —
in a style element's text or in a style attribute value — carries an offset
such that the span `[offset, offset + url.length)` of the source string is
exactly the yielded url text (so surrounding quote characters, when the
group was quoted, lie outside the span); and the spec's example yields
`y.css` and `x.png`, descending, each offset pointing at the first character
inside the quotes. -/
theorem c5_css_offsets :
    (∀ t : Str, ∀ o ∈ styleTextOccs t, ∃ u, o.url = some u ∧
      (t.drop o.pos).take u.length = u) ∧
    (∀ v : Str, ∀ o ∈ styleAttrOccs v, ∃ u, o.url = some u ∧
      (v.drop o.pos).take u.length = u) ∧
    styleTextOccs (lit "a\x7bbackground:url('x.png')\x7d @import \"y.css\";") =
      [⟨none, some (lit "y.css"), 36⟩, ⟨none, some (lit "x.png"), 18⟩] :=
  ⟨fun t o ho => ((styleTextOccs_spec t).2 o ho).2,
   fun v o ho => ((styleAttrOccs_spec v).2 o ho).2, by decide⟩

/-- C5 witness: the span property evaluated at the spec's example, on the
`x.png` occurrence of the style text. -/
theorem c5_css_offsets_witness :
    ∃ u, (Occ.mk none (some (lit "x.png")) 18).url = some u ∧
      (((lit "a\x7bbackground:url('x.png')\x7d @import \"y.css\";").drop 18)).take u.length = u :=
  c5_css_offsets.1 (lit "a\x7bbackground:url('x.png')\x7d @import \"y.css\";")
    ⟨none, some (lit "x.png"), 18⟩ (by decide)

/-- C3 counterexample: a refresh meta whose `content` is empty.  The
refresh regex fails to match, yet no fallback occurrence at all is yielded
(the stripped url is empty and the truthiness test drops it), contrary to
the claim that a parse failure yields one occurrence with the entire
content at offset 0. -/
theorem c3_counterexample :
    parse_meta_refresh_url (lit "") 0 = none ∧
    handle_lxml_elem idJoin [] []
      ⟨lit "meta", [(lit "http-equiv", lit "refresh"), (lit "content", lit "")], none⟩ = [] := by
  decide

/-- C3 (amended): for every meta element whose `http-equiv` lowercases to
`refresh`, scanning never raises and yields at most one occurrence for
`content`: when the whitespace-stripped (and quote-stripped) candidate —
the regex target on a match, the whole content on a failure — is
non-empty, exactly one occurrence is yielded whose url occupies exactly
the span `[pos, pos + url.length)` of the `content` value; when the
stripped candidate is empty, no occurrence is yielded. -/
theorem c3_meta_refresh (el : Elem)
    (h : asciiLower ((lookupAttr el (lit "http-equiv")).getD []) = lit "refresh") :
    (metaOccs el).length ≤ 1 ∧
    (metaOccs el = [] ↔ metaRawUrl ((lookupAttr el (lit "content")).getD []) = []) ∧
    (∀ o ∈ metaOccs el, o.attr = some (lit "content") ∧
      ∃ u, o.url = some u ∧
        ((((lookupAttr el (lit "content")).getD []).drop o.pos).take u.length = u)) := by
  have hmo : metaOccs el = metaContentOccs el := by
    unfold metaOccs
    rw [if_pos h]
  rw [hmo]
  refine ⟨?_, ?_, ?_⟩
  · unfold metaContentOccs
    split <;> simp
  · unfold metaContentOccs
    split
    · rename_i hraw
      simpa using hraw
    · rename_i hraw
      simpa using hraw
  · intro o ho
    unfold metaContentOccs at ho
    split at ho
    · simp at ho
    · rw [List.mem_singleton] at ho
      subst ho
      refine ⟨rfl, (unquote_match (metaRawUrl ((lookupAttr el (lit "content")).getD []))
        (metaPos ((lookupAttr el (lit "content")).getD []))).1, rfl, ?_⟩
      exact take_of_isPre (unquote_sub (metaRawUrl_sub _))

/-- C3 witness: the amended statement evaluated on
`<meta http-equiv="refresh" content="5;url=foo.html">`. -/
theorem c3_meta_refresh_witness :
    (metaOccs ⟨lit "meta",
        [(lit "http-equiv", lit "refresh"), (lit "content", lit "5;url=foo.html")],
        none⟩).length ≤ 1 ∧
    (metaOccs ⟨lit "meta",
        [(lit "http-equiv", lit "refresh"), (lit "content", lit "5;url=foo.html")],
        none⟩ = [] ↔
      metaRawUrl ((lookupAttr ⟨lit "meta",
        [(lit "http-equiv", lit "refresh"), (lit "content", lit "5;url=foo.html")],
        none⟩ (lit "content")).getD []) = []) ∧
    (∀ o ∈ metaOccs ⟨lit "meta",
        [(lit "http-equiv", lit "refresh"), (lit "content", lit "5;url=foo.html")],
        none⟩, o.attr = some (lit "content") ∧
      ∃ u, o.url = some u ∧
        ((((lookupAttr ⟨lit "meta",
          [(lit "http-equiv", lit "refresh"), (lit "content", lit "5;url=foo.html")],
          none⟩ (lit "content")).getD []).drop o.pos).take u.length = u)) :=
  c3_meta_refresh _ (by decide)

/-- C4 counterexample: an `object` element skips the single-URL attribute
loop entirely, so with `href` in the single-URL set, an object carrying
`href="aaaaa.html"` yields no occurrence at all — against the claim that
every element yields one occurrence per configured single-URL attribute. -/
theorem c4_counterexample :
    handle_lxml_elem idJoin [lit "href"] []
      ⟨lit "object", [(lit "href", lit "aaaaa.html")], none⟩ = [] := by
  decide

/-- C4 (amended): for every element whose namespace-stripped tag is not
`object`, and every attribute name of the configured single-URL set
(listed once, not also in the multi-URL set, and distinct from the
specially handled names `content`, `value` and `style`) present on the
element, scanning yields exactly one occurrence for that attribute, at
offset 0, whose url is the verbatim attribute value; `object` elements
skip the single-URL table. -/
theorem c4_single_attrs (uj : Str → Str → Str) (single multi : List Str) (el : Elem)
    (a v : Str)
    (hobj : nons el.tag ≠ lit "object")
    (hcount : single.count a = 1)
    (hv : lookupAttr el a = some v) (_hne : v ≠ [])
    (hmulti : a ∉ multi)
    (hcontent : a ≠ lit "content") (hvalue : a ≠ lit "value") (hstyle : a ≠ lit "style") :
    (handle_lxml_elem uj single multi el).filter (fun o => o.attr == some a) =
      [⟨some a, some v, 0⟩] := by
  unfold handle_lxml_elem
  rw [if_neg hobj]
  rw [List.filter_append, List.filter_append, List.filter_append]
  rw [singleOccs_filter el a v single hv, hcount]
  rw [listAttrOccs_filter hmulti]
  have h2 : ((if nons el.tag = lit "meta" then metaOccs el
      else if nons el.tag = lit "param" then paramOccs el
      else if nons el.tag = lit "style" ∧ textTruthy el then styleTextOccs (el.text.getD [])
      else []).filter (fun o => o.attr == some a)) = [] := by
    apply attr_filter_eq_nil
    intro o ho
    split at ho
    · rw [metaOccs_attr el o ho]
      simp only [ne_eq, Option.some.injEq]
      exact fun hh => hcontent hh.symm
    · split at ho
      · rw [paramOccs_attr el o ho]
        simp only [ne_eq, Option.some.injEq]
        exact fun hh => hvalue hh.symm
      · split at ho
        · rw [((styleTextOccs_spec _).2 o ho).1]
          simp
        · simp at ho
  have h3 : ((match lookupAttr el (lit "style") with
      | some w => styleAttrOccs w
      | none => ([] : List Occ)).filter (fun o : Occ => o.attr == some a)) = [] := by
    apply attr_filter_eq_nil
    intro o ho
    cases hls : lookupAttr el (lit "style") with
    | none => rw [hls] at ho; simp at ho
    | some w =>
      rw [hls] at ho
      rw [((styleAttrOccs_spec w).2 o ho).1]
      simp only [ne_eq, Option.some.injEq]
      exact fun hh => hstyle hh.symm
  rw [h2, h3]
  simp

/-- C4 witness: an `img` element with `src="pic.png"` under the
configuration `single = [src]`, `multi = [srcset]`. -/
theorem c4_single_attrs_witness :
    (handle_lxml_elem idJoin [lit "src"] [lit "srcset"]
        ⟨lit "img", [(lit "src", lit "pic.png")], none⟩).filter
      (fun o => o.attr == some (lit "src")) =
      [⟨some (lit "src"), some (lit "pic.png"), 0⟩] :=
  c4_single_attrs idJoin [lit "src"] [lit "srcset"]
    ⟨lit "img", [(lit "src", lit "pic.png")], none⟩ (lit "src") (lit "pic.png")
    (by decide) (by decide) (by decide) (by decide) (by decide)
    (by decide) (by decide) (by decide)

/-- C6 counterexample: `_archive_re` is `[^ ]+`, splitting on the ASCII
space only.  An object with `archive="aaa\tbbb"` (a tab) yields a single
occurrence whose url is the whole tab-joined text, not the two
whitespace-separated tokens the claim predicts. -/
theorem c6_counterexample :
    handle_lxml_elem idJoin [] []
        ⟨lit "object", [(lit "archive", lit "aaa\tbbb")], none⟩ =
      [⟨some (lit "archive"), some (lit "aaa\tbbb"), 0⟩] ∧
    (⟨some (lit "archive"), some (lit "bbb"), 4⟩ : Occ) ∉
      handle_lxml_elem idJoin [] []
        ⟨lit "object", [(lit "archive", lit "aaa\tbbb")], none⟩ := by
  decide

/-- C6 (amended): scanning an object element (here with `codebase`,
`classid`, `data` and `archive` all present and no `style` attribute)
yields, in order: `codebase` at offset 0, then `classid` and `data`
resolved against `codebase` at offset 0 in that attribute order, then each
space-separated token of `archive` (split on the ASCII space character
only, so tabs and newlines do not separate tokens), resolved against
`codebase`, at that token's match start, in forward (strictly ascending)
order; each token is non-empty, space-free, and occupies exactly the span
`[start, start + token.length)` of the archive value. -/
theorem c6_object_occs (uj : Str → Str → Str) (single multi : List Str) (el : Elem)
    (cb ci da av : Str)
    (htag : nons el.tag = lit "object")
    (hcb : lookupAttr el (lit "codebase") = some cb)
    (hci : lookupAttr el (lit "classid") = some ci)
    (hda : lookupAttr el (lit "data") = some da)
    (har : lookupAttr el (lit "archive") = some av)
    (hstyle : lookupAttr el (lit "style") = none) :
    handle_lxml_elem uj single multi el =
      ⟨some (lit "codebase"), some cb, 0⟩ ::
      ⟨some (lit "classid"), some (uj cb ci), 0⟩ ::
      ⟨some (lit "data"), some (uj cb da), 0⟩ ::
      (archive_finditer av).map
        (fun m => ⟨some (lit "archive"), some (uj cb m.1), m.2⟩) ∧
    List.Pairwise (fun x y : Str × Nat => x.2 < y.2) (archive_finditer av) ∧
    ∀ m ∈ archive_finditer av, m.1 ≠ [] ∧ (' ' ∉ m.1) ∧
      (av.drop m.2).take m.1.length = m.1 := by
  have hs := runsAux_spec (fun c => c = ' ') av 0
  refine ⟨?_, ?_, ?_⟩
  · unfold handle_lxml_elem
    rw [if_pos htag, htag, hstyle]
    rw [if_neg (by decide), if_neg (by decide)]
    rw [if_neg (fun hcon => absurd hcon.1 (by decide))]
    unfold objectOccs
    rw [hcb, har]
    simp [hci, hda]
  · refine hs.1.imp_of_mem (fun ha hb hr => ?_)
    rename_i x y
    have hx := (hs.2 x ha).2.1
    have hlen : 1 ≤ x.1.length := List.length_pos.mpr hx
    omega
  · intro m hm
    obtain ⟨h1, h2, h3, h4⟩ := hs.2 m hm
    refine ⟨h2, ?_, ?_⟩
    · intro hsp
      have := h3 ' ' hsp
      simp at this
    · rw [Nat.sub_zero] at h4
      exact take_of_isPre h4

/-- C6 witness: the spec's object example, with an archive list, under
concatenation as the resolution function; the object-branch output is the
enumerated sequence, here evaluated. -/
theorem c6_object_occs_witness :
    handle_lxml_elem catJoin [] []
        ⟨lit "object", [(lit "codebase", lit "http://x/"), (lit "classid", lit "a.class"),
          (lit "data", lit "b.dat"), (lit "archive", lit "x.jar y.jar")], none⟩ =
      [⟨some (lit "codebase"), some (lit "http://x/"), 0⟩,
       ⟨some (lit "classid"), some (lit "http://x/a.class"), 0⟩,
       ⟨some (lit "data"), some (lit "http://x/b.dat"), 0⟩,
       ⟨some (lit "archive"), some (lit "http://x/x.jar"), 0⟩,
       ⟨some (lit "archive"), some (lit "http://x/y.jar"), 6⟩] :=
  ((c6_object_occs catJoin [] []
      ⟨lit "object", [(lit "codebase", lit "http://x/"), (lit "classid", lit "a.class"),
        (lit "data", lit "b.dat"), (lit "archive", lit "x.jar y.jar")], none⟩
      (lit "http://x/") (lit "a.class") (lit "b.dat") (lit "x.jar y.jar")
      (by decide) (by decide) (by decide) (by decide) (by decide) (by decide)).1).trans
    (by decide)

/-- C10: a param element whose `valuetype` lowercases to `ref` but which
has no `value` attribute still yields exactly one occurrence for the
`value` attribute, at offset 0, with url `None` — the element is not
skipped. -/
theorem c10_param_none_value (uj : Str → Str → Str) (single multi : List Str) (el : Elem)
    (htag : nons el.tag = lit "param")
    (hvt : asciiLower ((lookupAttr el (lit "valuetype")).getD []) = lit "ref")
    (hval : lookupAttr el (lit "value") = none) :
    (handle_lxml_elem uj single multi el).filter
      (fun o => o.attr == some (lit "value")) = [⟨some (lit "value"), none, 0⟩] := by
  unfold handle_lxml_elem
  rw [if_neg (fun hcon => by rw [htag] at hcon; exact absurd hcon (by decide))]
  rw [htag]
  rw [if_neg (by decide), if_pos rfl]
  rw [List.filter_append, List.filter_append, List.filter_append]
  rw [singleOccs_filter_none el (lit "value") single hval]
  rw [listAttrOccs_filter_none el (lit "value") multi hval]
  have h2 : (paramOccs el).filter (fun o => o.attr == some (lit "value")) =
      [⟨some (lit "value"), none, 0⟩] := by
    unfold paramOccs
    rw [if_pos hvt, hval]
    simp
  have h3 : ((match lookupAttr el (lit "style") with
      | some w => styleAttrOccs w
      | none => ([] : List Occ)).filter (fun o : Occ => o.attr == some (lit "value"))) = [] := by
    apply attr_filter_eq_nil
    intro o ho
    cases hls : lookupAttr el (lit "style") with
    | none => rw [hls] at ho; simp at ho
    | some w =>
      rw [hls] at ho
      rw [((styleAttrOccs_spec w).2 o ho).1]
      simp only [ne_eq, Option.some.injEq]
      decide
  rw [h2, h3]
  simp

/-- C10 witness: `<param valuetype="Ref">` with no `value` attribute. -/
theorem c10_param_none_value_witness :
    (handle_lxml_elem idJoin [] []
        ⟨lit "param", [(lit "valuetype", lit "Ref")], none⟩).filter
      (fun o => o.attr == some (lit "value")) = [⟨some (lit "value"), none, 0⟩] :=
  c10_param_none_value idJoin [] [] ⟨lit "param", [(lit "valuetype", lit "Ref")], none⟩
    (by decide) (by decide) (by decide)

/-- `editsValid` entails pairwise-consecutive non-overlap and strict
descent. -/
theorem editsValid_chain {len : Nat} : ∀ {edits : List Edit},
    editsValid len edits = true →
    List.Chain' (fun e1 e2 : Edit => e2.offset + e2.old_length ≤ e1.offset ∧
      e2.offset < e1.offset) edits := by
  intro edits
  induction edits with
  | nil => intro _; exact List.chain'_nil
  | cons e rest ih =>
    intro h
    cases rest with
    | nil => simp
    | cons e2 rest2 =>
      rw [editsValid] at h
      simp only [decide_eq_true_eq] at h
      obtain ⟨h1, h2, h3, h4⟩ := h
      rw [List.chain'_cons]
      exact ⟨⟨h3, h2⟩, ih (by simpa using h4)⟩

/-- C7: RewriteApplier, given edits that overlap or are not in strictly
descending offset order (consecutive edits must satisfy both
`e2.offset + e2.old_length ≤ e1.offset` and `e2.offset < e1.offset`),
fails loudly and produces no output string. -/
theorem c7_rewrite_applier (s : Str) (edits : List Edit)
    (h : ¬ List.Chain' (fun e1 e2 : Edit => e2.offset + e2.old_length ≤ e1.offset ∧
      e2.offset < e1.offset) edits) :
    rewriteApply s edits =
      .error "RewriteApplier: edits must be non-overlapping and in strictly descending offset order" := by
  have hvalid : ¬ editsValid s.length edits = true := fun hv => h (editsValid_chain hv)
  unfold rewriteApply
  rw [if_neg hvalid]

/-- C7 witness: two edits with ascending offsets are rejected. -/
theorem c7_rewrite_applier_witness :
    rewriteApply (lit "abcdef") [⟨0, 1, lit "X"⟩, ⟨2, 1, lit "Y"⟩] =
      .error "RewriteApplier: edits must be non-overlapping and in strictly descending offset order" :=
  c7_rewrite_applier _ _ (by
    intro hc
    have h2 := (List.chain'_cons.mp hc).1
    simp at h2)

/-- C8 counterexample: `elements` on a fresh base parser raises
`AssertionError("UrlTransformer not Implemented.")` — an assertion
failure, not the `ParseError` the claim promises. -/
theorem c8_counterexample :
    elementsProperty idJoin [] [] freshParser =
      .error (.assertionError "UrlTransformer not Implemented.") := rfl

/-- C8 (amended): requesting scan results on an uninitialized parser is
never silently an empty sequence — it always raises: `get_source` raises
`ParseError` whenever the source is unset or has no `read` method, and
`elements` with no parsed tree and no source never returns; it raises
`ParseError` when the transformer (with its base path and url) is
configured, and an `AssertionError`/`RuntimeError` on the other
uninitialized configurations. -/
theorem c8_uninitialized :
    (∀ (Obj : Type) (st : ParserState Obj), st.source = none →
      get_source st =
        .error (.parseError "Source is not defined or doesn't have a read method!")) ∧
    (∀ (Obj : Type) (st : ParserState Obj) (fs : FileSource),
      st.source = some fs → fs.hasRead = false →
      get_source st =
        .error (.parseError "Source is not defined or doesn't have a read method!")) ∧
    (∀ (Obj : Type) (uj : Str → Str → Str) (single multi : List Str)
      (st : ParserState Obj), st.root = none → st.source = none →
      ∀ r, elementsProperty uj single multi st ≠ .ok r) ∧
    (∀ (Obj : Type) (uj : Str → Str → Str) (single multi : List Str)
      (st : ParserState Obj) (u : UrlTransformer),
      st.parseComplete = false → st.source = none → st.utx = some u →
      u.base_path ≠ none → u.base_url ≠ none →
      elementsProperty uj single multi st =
        .error (.parseError "Source is not defined or doesn't have a read method!")) := by
  refine ⟨?_, ?_, ?_, ?_⟩
  · intro Obj st h
    unfold get_source
    rw [h]
  · intro Obj st fs h hr
    unfold get_source
    rw [h]
    simp [hr]
  · intro Obj uj single multi st hroot hsrc r
    unfold elementsProperty
    by_cases hpc : st.parseComplete = true
    · rw [if_pos ⟨hpc, hroot⟩]
      simp
    · rw [if_neg (fun hcon => hpc hcon.1)]
      rw [if_neg hpc]
      have hpm : ∃ e, parseMethod uj single multi st = .error e := by
        cases hu : st.utx with
        | none => exact ⟨_, parseMethod_utx_none uj single multi st hu⟩
        | some u =>
          rw [parseMethod_utx_some uj single multi st u hu]
          by_cases hbp : u.base_path = none
          · rw [if_pos hbp]; exact ⟨_, rfl⟩
          · rw [if_neg hbp]
            by_cases hbu : u.base_url = none
            · rw [if_pos hbu]; exact ⟨_, rfl⟩
            · rw [if_neg hbu]
              have hgs : get_source st =
                  .error (.parseError "Source is not defined or doesn't have a read method!") := by
                unfold get_source
                rw [hsrc]
              rw [hgs]
              exact ⟨_, rfl⟩
      obtain ⟨e, he⟩ := hpm
      rw [he]
      simp
  · intro Obj uj single multi st u hpc hsrc hu hbp hbu
    unfold elementsProperty
    rw [if_neg (fun hcon => by rw [hpc] at hcon; exact absurd hcon.1 (by simp))]
    rw [if_neg (by simp [hpc])]
    have hpm : parseMethod uj single multi st =
        .error (.parseError "Source is not defined or doesn't have a read method!") := by
      rw [parseMethod_utx_some uj single multi st u hu]
      rw [if_neg hbp, if_neg hbu]
      have hgs : get_source st =
          .error (.parseError "Source is not defined or doesn't have a read method!") := by
        unfold get_source
        rw [hsrc]
      rw [hgs]
    rw [hpm]

/-- C8 witness: the four uninitialized configurations evaluated on
concrete parser states. -/
theorem c8_uninitialized_witness :
    get_source freshParser =
      .error (.parseError "Source is not defined or doesn't have a read method!") ∧
    get_source noReadParser =
      .error (.parseError "Source is not defined or doesn't have a read method!") ∧
    elementsProperty idJoin [] [] utxOnlyParser ≠ .ok (utxOnlyParser, []) ∧
    elementsProperty idJoin [] [] utxOnlyParser =
      .error (.parseError "Source is not defined or doesn't have a read method!") :=
  ⟨c8_uninitialized.1 Occ freshParser rfl,
   c8_uninitialized.2.1 Occ noReadParser noReadSource rfl rfl,
   c8_uninitialized.2.2.1 Occ idJoin [] [] utxOnlyParser rfl rfl (utxOnlyParser, []),
   c8_uninitialized.2.2.2 Occ idJoin [] [] utxOnlyParser readyUtx rfl rfl rfl
     (by simp [readyUtx]) (by simp [readyUtx])⟩

/-- A successful `get_source` returns the parser's own source. -/
theorem get_source_ok {Obj : Type} {st : ParserState Obj} {fs : FileSource}
    (h : get_source st = .ok fs) : st.source = some fs := by
  unfold get_source at h
  cases hs : st.source with
  | none => rw [hs] at h; exact absurd h (by simp)
  | some s0 =>
    rw [hs] at h
    replace h : (if s0.hasRead = true then Except.ok s0
        else (Except.error (PyErr.parseError
          "Source is not defined or doesn't have a read method!") :
            Except PyErr FileSource)) = Except.ok fs := h
    by_cases hr : s0.hasRead = true
    · rw [if_pos hr] at h
      obtain rfl : s0 = fs := Except.ok.inj h
      rfl
    · rw [if_neg hr] at h
      exact absurd h (by simp)

/-- C9: after a successful scan pass, the engine's only collection is the
stack of caller-factory products: the new stack is the old stack plus, for
each element in document order, the factory's images of that element's
occurrences (the occurrences for which the factory returns `None` are
dropped); every retained object is a factory product of some occurrence,
and no occurrence itself is stored in the resulting state. -/
theorem c9_transient_occurrences {Obj : Type} (uj : Str → Str → Str)
    (single multi : List Str) (st st' : ParserState Obj)
    (f : Elem → Option Str → Option Str → Nat → Option Obj)
    (hf : st.make_element = some f)
    (h : parseMethod uj single multi st = .ok st') :
    ∃ fs, st.source = some fs ∧
      st'.stack = st.stack ++ fs.doc.flatMap (fun el =>
        (handle_lxml_elem uj single multi el).filterMap (fun oc =>
          f el oc.attr oc.url oc.pos)) ∧
      ∀ o ∈ st'.stack, o ∈ st.stack ∨
        ∃ el ∈ fs.doc, ∃ oc ∈ handle_lxml_elem uj single multi el,
          f el oc.attr oc.url oc.pos = some o := by
  cases hu : st.utx with
  | none =>
    rw [parseMethod_utx_none uj single multi st hu] at h
    exact absurd h (by simp)
  | some u =>
    rw [parseMethod_utx_some uj single multi st u hu] at h
    by_cases hbp : u.base_path = none
    · rw [if_pos hbp] at h; exact absurd h (by simp)
    · rw [if_neg hbp] at h
      by_cases hbu : u.base_url = none
      · rw [if_pos hbu] at h; exact absurd h (by simp)
      · rw [if_neg hbu] at h
        cases hgs : get_source st with
        | error e => rw [hgs] at h; exact absurd h (by simp)
        | ok fs =>
          rw [hgs, hf] at h
          have hst' : st' =
              { utx := st.utx, source := st.source,
                parseComplete := true, root := some fs.doc,
                stack := st.stack ++ fs.doc.flatMap (fun el =>
                  (handle_lxml_elem uj single multi el).filterMap (fun oc =>
                    f el oc.attr oc.url oc.pos)),
                make_element := some f } :=
            (Except.ok.inj h).symm
          refine ⟨fs, get_source_ok hgs, ?_, ?_⟩
          · rw [hst']
          · intro o ho
            rw [hst'] at ho
            have ho2 : o ∈ st.stack ++ fs.doc.flatMap (fun el =>
                (handle_lxml_elem uj single multi el).filterMap (fun oc =>
                  f el oc.attr oc.url oc.pos)) := ho
            rcases List.mem_append.mp ho2 with hl | hr
            · exact .inl hl
            · right
              rw [List.mem_flatMap] at hr
              obtain ⟨el, hel, ho3⟩ := hr
              rw [List.mem_filterMap] at ho3
              obtain ⟨oc, hoc, hfo⟩ := ho3
              exact ⟨el, hel, oc, hoc, hfo⟩

/-- C9 witness: one concrete pass. -/
theorem c9_transient_occurrences_witness :
    ∃ fs, readyParser.source = some fs ∧
      parsedParser.stack = readyParser.stack ++ fs.doc.flatMap (fun el =>
        (handle_lxml_elem idJoin [lit "src"] [] el).filterMap (fun oc =>
          occFactory el oc.attr oc.url oc.pos)) ∧
      ∀ o ∈ parsedParser.stack, o ∈ readyParser.stack ∨
        ∃ el ∈ fs.doc, ∃ oc ∈ handle_lxml_elem idJoin [lit "src"] [] el,
          occFactory el oc.attr oc.url oc.pos = some o :=
  c9_transient_occurrences idJoin [lit "src"] [] readyParser parsedParser occFactory
    rfl rfl

end PWC
